import Mathlib

/-!
Shallow embedding of the smugmug-downloader program (src/main.go) and
verification of its specification claims.

The embedding follows the Go source closely:

* `reqLoop` / `reqTrace` embed `HTTPClient.Req` (lines 82-116): a GET loop
  that retries 5xx responses up to `retries = 3` extra attempts with a
  constant 500 ms sleep between attempts.
* `reMatch` / `parseName` embed the regular expression
  `^([^0-9]*)([0-9]+).jpg$` and the session/index extraction of `loopAlbum`
  (lines 296, 336-348).  Note the dot in the pattern is unescaped, so it
  matches any single character.
* `stepAssign` / `runOccs` / `runNames` embed the session bookkeeping of
  `loopAlbum` (lines 349-363): `sessions : map[string][]map[int]bool`.
* `runAlbumLoop` / `runFolderLoop` embed the pagination loops of
  `loopAlbum` (lines 299-317) and `loopFolder` (lines 432-467); the
  per-child recursion of `loopFolder` does not touch that loop's cursor and
  is elided.  Loops are given explicit fuel; the returned Bool is true when
  the loop reached its exit condition `start >= total` within the fuel.
* `imageHashURL` embeds the function of the same name (lines 278-284);
  a missing key in the expansions map yields the Go zero value.
* `ensure` is modelled from the spec (see its doc comment): the download
  or skip step is commented out in src/main.go.
-/

namespace Smug

/-! ### Decimal rendering (fmt.Sprintf "%02d") -/

/-- Character for the decimal digit `d < 10`. -/
def decChar (d : Nat) : Char := Char.ofNat (48 + d)

/-- Numeric value of a decimal digit character. -/
def decVal (c : Char) : Nat := c.toNat - 48

/-- Decimal digit characters of `n`, most significant first; `fuel`-bounded
structural recursion (`fuel ≥ n + 1` suffices). -/
def toDecAux : Nat → Nat → List Char
  | 0, _ => []
  | fuel + 1, n => if n < 10 then [decChar n] else toDecAux fuel (n / 10) ++ [decChar (n % 10)]

/-- Decimal digit characters of `n`, most significant first. -/
def toDec (n : Nat) : List Char := toDecAux (n + 1) n

/-- Value of a list of decimal digit characters (leading zeros allowed). -/
def ofDec (l : List Char) : Nat := l.foldl (fun acc c => 10 * acc + decVal c) 0

/-- Go `fmt.Sprintf("%02d", n)`: decimal rendering padded to at least two
digits. -/
def sprintf02d (n : Nat) : List Char := if n < 10 then '0' :: toDec n else toDec n

/-! ### Filename parsing: regexp `^([^0-9]*)([0-9]+).jpg$` -/

/-- The character class `[0-9]` of the Go regular expression. -/
def isDig (c : Char) : Bool := 48 ≤ c.toNat && c.toNat ≤ 57

/-- The three literal characters `jpg` at the end of the pattern. -/
def jpgChars : List Char := ['j', 'p', 'g']

/-- The four characters of the literal suffix `.jpg` used by
`strings.TrimSuffix`. -/
def dotJpg : List Char := ['.', 'j', 'p', 'g']

/-- Core of the regex match, applied to the maximal non-digit prefix `p`,
the maximal digit run `d0` after it, and the remainder `r`.  The dot of
the pattern `([0-9]+).jpg$` is unescaped, and Go's default dot
(`syntax.Perl`, no `DotNL`) matches any character except a newline.  So
the whole string matches exactly when either `r` is one arbitrary
non-newline character followed by `jpg` (group 2 is all of `d0`, greedy),
or `r` is exactly `jpg` and the dot consumes the final digit of `d0`
(group 2 is `d0` minus its last digit, which needs `d0` to have at least
two digits; a digit is never a newline). -/
def reMatchCore (p d0 r : List Char) : Option (List Char × List Char) :=
  if r.length = 4 ∧ r.drop 1 = jpgChars ∧ r.head? ≠ some '\n' ∧ d0 ≠ [] then some (p, d0)
  else if r = jpgChars ∧ 2 ≤ d0.length then some (p, d0.dropLast)
  else none

/-- Embeds `re.FindStringSubmatch` for `^([^0-9]*)([0-9]+).jpg$`
(src/main.go line 296): returns the two capture groups (non-digit prefix,
digit run) when the string matches. -/
def reMatch (s : List Char) : Option (List Char × List Char) :=
  reMatchCore (s.takeWhile (fun c => !(isDig c)))
    ((s.dropWhile (fun c => !(isDig c))).takeWhile isDig)
    ((s.dropWhile (fun c => !(isDig c))).dropWhile isDig)

/-- Go `strings.TrimSuffix(s, ".jpg")`. -/
def trimSuffixJpg (s : List Char) : List Char :=
  if dotJpg.isSuffixOf s then s.take (s.length - 4) else s

/-- Session key and numeric index extracted from a file name
(src/main.go lines 336-348): on a regex match the captures, otherwise the
name with any `.jpg` suffix removed and index 0.  The index is kept as a
`Nat`; `strconv.Atoi`'s int64 overflow is modelled separately by
`atoiDigits`. -/
def parseName (fn : String) : String × Nat :=
  match reMatch fn.data with
  | some pd => (⟨pd.1⟩, ofDec pd.2)
  | none => (⟨trimSuffixJpg fn.data⟩, 0)

/-- Largest value of Go's 64-bit `int`. -/
def maxInt64 : Nat := 9223372036854775807

/-- Go `strconv.Atoi` restricted to the non-empty digit strings produced
by capture group 2: it fails (with `ErrRange`) exactly when the value
exceeds the int64 maximum. -/
def atoiDigits (ds : List Char) : Option Nat :=
  if ofDec ds ≤ maxInt64 then some (ofDec ds) else none

/-! ### Session bookkeeping (`sessions : map[string][]map[int]bool`) -/

/-- State of `loopAlbum`'s `sessions` map: association list from session
key to the list of occurrences, each occurrence being its set of seen
indexes (a list without duplicates). -/
def SessState : Type := List (String × List (List Nat))

/-- Go map read `sessions[s]`. -/
def lookupS : SessState → String → Option (List (List Nat))
  | [], _ => none
  | (k, v) :: rest, s => if k = s then some v else lookupS rest s

/-- Go map write `sessions[s] = v`. -/
def updateS : SessState → String → List (List Nat) → SessState
  | [], s, v => [(s, v)]
  | (k, w) :: rest, s, v => if k = s then (k, v) :: rest else (k, w) :: updateS rest s v

/-- One image of `loopAlbum`'s session bookkeeping (src/main.go lines
336-363): parse the file name; if the key is new start with one empty
occurrence; if the index was already seen in the current (last) occurrence
start a new occurrence containing just this index, otherwise record the
index in the current occurrence.  Returns the assigned occurrence number
`len(sessions[session]) - 1` (printed as the `%02d` prefix) and the new
state. -/
def stepAssign (st : SessState) (fn : String) : Nat × SessState :=
  let si := parseName fn
  let occs0 := match lookupS st si.1 with
    | none => [([] : List Nat)]
    | some occs => occs
  let last := occs0.getLastD []
  if si.2 ∈ last then
    let occs1 := occs0 ++ [[si.2]]
    (occs1.length - 1, updateS st si.1 occs1)
  else
    let occs1 := occs0.dropLast ++ [last ++ [si.2]]
    (occs1.length - 1, updateS st si.1 occs1)

/-- Occurrence numbers assigned to a list of file names processed in
order. -/
def runOccs : SessState → List String → List Nat
  | _, [] => []
  | st, fn :: fns => (stepAssign st fn).1 :: runOccs (stepAssign st fn).2 fns

/-- Local file name assigned to one image:
`fmt.Sprintf("%v_%v", prefix, image.FileName)` with the zero-padded
occurrence number as prefix (src/main.go lines 361-363). -/
def localName (occ : Nat) (fn : String) : String :=
  ⟨sprintf02d occ ++ '_' :: fn.data⟩

/-- Local file names assigned to a list of file names processed in
order. -/
def runNames : SessState → List String → List String
  | _, [] => []
  | st, fn :: fns => localName (stepAssign st fn).1 fn :: runNames (stepAssign st fn).2 fns

/-- Zero-padded occurrence prefixes assigned to a list of file names, as
printed by `fmt.Sprintf("%02d", len(sessions[session])-1)`. -/
def runPfx : SessState → List String → List String
  | _, [] => []
  | st, fn :: fns => (⟨sprintf02d (stepAssign st fn).1⟩ : String) :: runPfx (stepAssign st fn).2 fns

/-- Occurrence numbers assigned within one album starting from the empty
session state. -/
def assignedOccs (fns : List String) : List Nat := runOccs [] fns

/-- Local file names assigned within one album starting from the empty
session state. -/
def assignedNames (fns : List String) : List String := runNames [] fns

/-- Well-formedness of the sessions map: every stored occurrence list is
non-empty (the map is only ever written with a freshly appended
occurrence). -/
def WFS (st : SessState) : Prop :=
  ∀ s occs, lookupS st s = some occs → occs ≠ []

/-- Invariant recorded for one already-processed image with file name `fn`
that was assigned occurrence number `o`: its session is present in the
map, `o` is below the current occurrence count, and if `o` is still the
current occurrence then the image's index is in the current seen-index
set.  This is what makes a later repetition of the same file name start a
strictly later occurrence. -/
def RecInv (st : SessState) (fn : String) (o : Nat) : Prop :=
  ∃ occs, lookupS st (parseName fn).1 = some occs ∧ o + 1 ≤ occs.length ∧
    (o + 1 = occs.length → (parseName fn).2 ∈ occs.getLastD [])

/-! ### HTTP retry loop (`HTTPClient.Req`, src/main.go lines 80-116) -/

/-- Number of extra attempts allowed on a 5xx response
(`const retries = 3`). -/
def retries : Nat := 3

/-- Outcome of one `client.Do(req)` call: a transport-level error, or a
response with a status code and body bytes. -/
inductive HResp where
  | transport : HResp
  | status : Nat → List Nat → HResp

/-- Result of `HTTPClient.Req`. -/
inductive ReqOut where
  | transportErr : ReqOut
  | maxAttemptsErr : Nat → ReqOut
  | statusErr : Nat → ReqOut
  | ok : List Nat → ReqOut
  | fuelOut : ReqOut

/-- The retry loop of `HTTPClient.Req`: `resp a` is the response to the
GET issued with attempt counter `a`.  Returns the result together with the
number of GETs performed and the list of sleep durations (ms) executed
between consecutive attempts.  The fuel argument only bounds the
structural recursion; `retries + 1` is always enough since the attempt
counter increments on each retry and the loop returns when it reaches
`retries`. -/
def reqLoop (resp : Nat → HResp) : Nat → Nat → ReqOut × Nat × List Nat
  | _, 0 => (.fuelOut, 0, [])
  | attempt, fuel + 1 =>
    match resp attempt with
    | .transport => (.transportErr, 1, [])
    | .status code body =>
      if code ≠ 200 then
        if 500 ≤ code ∧ code < 600 then
          if attempt = retries then (.maxAttemptsErr code, 1, [])
          else
            ((reqLoop resp (attempt + 1) fuel).1,
             (reqLoop resp (attempt + 1) fuel).2.1 + 1,
             500 :: (reqLoop resp (attempt + 1) fuel).2.2)
        else (.statusErr code, 1, [])
      else (.ok body, 1, [])

/-- `HTTPClient.Req` from the initial attempt counter 0. -/
def reqTrace (resp : Nat → HResp) : ReqOut × Nat × List Nat :=
  reqLoop resp 0 (retries + 1)

/-! ### Pagination loops (`loopAlbum` lines 299-317, `loopFolder` lines 432-467) -/

/-- Sentinel for an unknown total (`const unknownTotal = 0xffff`). -/
def unknownTotal : Int := 65535

/-- Outcome of one page-fetch iteration: the URL builder failed (no HTTP
request is made), the fetch or JSON decode failed, or a decoded page with
its reported `Pages.Total`, `Pages.Count` and the image file names. -/
inductive FetchResult where
  | urlFail : FetchResult
  | fetchFail : FetchResult
  | page : Int → Int → List String → FetchResult

/-- The pagination loop of `loopAlbum` (src/main.go lines 299-317): while
`start < total`, fetch; on any failure `continue` with the state
unchanged; on success set `total` from the page when it is still the
sentinel, advance `start` by the page's `Count`, and run the session
bookkeeping over the page's images.  `env k` is the outcome of iteration
`k`; returns the list of `start` values at which a fetch was issued and
whether the exit condition was reached within the fuel. -/
def runAlbumLoop (env : Nat → FetchResult) : Nat → Int → Int → SessState → Nat → List Int × Bool
  | _, _, _, _, 0 => ([], false)
  | k, start, tot, st, fuel + 1 =>
    if start < tot then
      match env k with
      | .urlFail => runAlbumLoop env (k + 1) start tot st fuel
      | .fetchFail =>
        ((runAlbumLoop env (k + 1) start tot st fuel).1.cons start,
         (runAlbumLoop env (k + 1) start tot st fuel).2)
      | .page t c imgs =>
        ((runAlbumLoop env (k + 1) (start + c) (if tot = unknownTotal then t else tot)
            (imgs.foldl (fun s fn => (stepAssign s fn).2) st) fuel).1.cons start,
         (runAlbumLoop env (k + 1) (start + c) (if tot = unknownTotal then t else tot)
            (imgs.foldl (fun s fn => (stepAssign s fn).2) st) fuel).2)
    else ([], true)

/-- The pagination loop of `loopFolder` (src/main.go lines 432-467):
identical cursor logic except that `total` is reassigned from every
successful page (line 465).  The recursion into child nodes does not touch
this loop's cursor and is elided. -/
def runFolderLoop (env : Nat → FetchResult) : Nat → Int → Int → Nat → List Int × Bool
  | _, _, _, 0 => ([], false)
  | k, start, tot, fuel + 1 =>
    if start < tot then
      match env k with
      | .urlFail => runFolderLoop env (k + 1) start tot fuel
      | .fetchFail =>
        ((runFolderLoop env (k + 1) start tot fuel).1.cons start,
         (runFolderLoop env (k + 1) start tot fuel).2)
      | .page t c _ =>
        ((runFolderLoop env (k + 1) (start + c) t fuel).1.cons start,
         (runFolderLoop env (k + 1) (start + c) t fuel).2)
    else ([], true)

/-- An environment whose every fetch succeeds with `Total = 120`,
`Count = 50` and no images. -/
def pages120 : Nat → FetchResult := fun _ => .page 120 50 []

/-- An environment whose every fetch succeeds with `Total = 120` but
`Count = 0`: the cursor never advances. -/
def pagesStuck : Nat → FetchResult := fun _ => .page 120 0 []

/-! ### Image hash/URL resolution (`imageHashURL`, src/main.go lines 278-284) -/

/-- The `LargestImage` payload of one expansions entry (`ImageSize`
flattened by one record level). -/
structure ImageSize where
  Url : String
  MD5 : String

/-- The fields of an `Image` record used by `imageHashURL`:
`image.Uris.LargestImage.Uri` is flattened into `LargestImageUri`. -/
structure ImageRec where
  FileName : String
  ArchivedUri : String
  ArchivedMD5 : String
  LargestImageUri : String

/-- Go map read `album.Expansions[uri]` before the zero-value default is
applied. -/
def lookupExp : List (String × ImageSize) → String → Option ImageSize
  | [], _ => none
  | (k, v) :: rest, s => if k = s then some v else lookupExp rest s

/-- Embeds `imageHashURL` (src/main.go lines 278-284): prefer the direct
archived hash and URL when `ArchivedUri` is non-empty; otherwise read the
expansions map, where a missing key yields the Go zero value (empty
strings).  Returns `(hash, url)`. -/
def imageHashURL (expansions : List (String × ImageSize)) (image : ImageRec) : String × String :=
  if image.ArchivedUri ≠ "" then (image.ArchivedMD5, image.ArchivedUri)
  else
    (((lookupExp expansions image.LargestImageUri).getD ⟨"", ""⟩).MD5,
     ((lookupExp expansions image.LargestImageUri).getD ⟨"", ""⟩).Url)

/-! ### Download-or-skip step (modelled from the spec) -/

/-- State of the target local file as seen by the download step. -/
inductive LocalFile where
  | absent : LocalFile
  | openErr : LocalFile
  | readErr : LocalFile
  | content : List Nat → LocalFile

/-- Outcome of the download-or-skip step for one image. -/
inductive EnsureOut where
  | Skipped : EnsureOut
  | Downloaded : EnsureOut
  | ReadIOErr : EnsureOut
  | OpenIOErr : EnsureOut
  | DownloadFail : EnsureOut
  | WriteIOErr : EnsureOut

/-- The download after a failed or impossible hash check: fetch the image
bytes (`net` is the network's answer) and write them
(`writeOk` is whether `ioutil.WriteFile` succeeds).  The Bool is whether a
network fetch of the image bytes was performed. -/
def downloadStep (net : Option (List Nat)) (writeOk : Bool) : EnsureOut × Bool :=
  match net with
  | none => (.DownloadFail, true)
  | some _ => if writeOk then (.Downloaded, true) else (.WriteIOErr, true)

/-- Modelled from the spec: the per-image download-or-skip step
(`ensure` of the ContentAddressedDownloader, spec section 4.4); in
src/main.go this block (lines 365-396) is commented out, so it is
embedded from the spec and the commented code.  `hashHex` abstracts the
hex encoding of the first 16 bytes of the MD5 digest of the file content.
If the file exists compare hashes: on a match skip with no network fetch;
on a mismatch, or when the file is absent, fetch the bytes and write them.
A read or open error skips the image without fetching.  The Bool is
whether a network fetch of the image bytes was performed. -/
def ensure (hashHex : List Nat → String) (lf : LocalFile) (remoteHash : String)
    (net : Option (List Nat)) (writeOk : Bool) : EnsureOut × Bool :=
  match lf with
  | .readErr => (.ReadIOErr, false)
  | .openErr => (.OpenIOErr, false)
  | .content bytes =>
    if hashHex bytes = remoteHash then (.Skipped, false)
    else downloadStep net writeOk
  | .absent => downloadStep net writeOk

/-! ### Per-image processing of `loopAlbum` -/

/-- Result of processing one image of an album page: either
`log.Fatalf` terminated the process (src/main.go line 346, reached when
`strconv.Atoi` overflows on the capture-group digits), or the walk
continues with the next image, carrying the updated session state and the
outcome of the download-or-skip step. -/
inductive ImgStep where
  | fatal : ImgStep
  | continueWith : SessState → EnsureOut → ImgStep

/-- One image of `loopAlbum`'s inner loop: the parse and session
assignment follow src/main.go lines 336-364 (with `log.Fatalf` on Atoi
overflow); the subsequent download-or-skip step is the spec-modelled
`ensure` (the block is commented out in the source). -/
def processImage (hashHex : List Nat → String) (st : SessState)
    (expansions : List (String × ImageSize)) (img : ImageRec) (lf : LocalFile)
    (net : Option (List Nat)) (writeOk : Bool) : ImgStep :=
  match reMatch img.FileName.data with
  | some pd =>
    match atoiDigits pd.2 with
    | none => .fatal
    | some _ =>
      .continueWith (stepAssign st img.FileName).2
        (ensure hashHex lf (imageHashURL expansions img).1 net writeOk).1
  | none =>
    .continueWith (stepAssign st img.FileName).2
      (ensure hashHex lf (imageHashURL expansions img).1 net writeOk).1

/-! ### Spec-side pattern (for claim C7 only) -/

/-- The pattern exactly as the spec words it for claim C7: a non-digit
prefix, then one or more digits, then the literal suffix `.jpg`.  Stated
from the spec's words, to be compared with `reMatch`. -/
def specPatternMatches (s : List Char) : Prop :=
  ∃ p d, s = p ++ d ++ dotJpg ∧ (∀ c ∈ p, isDig c = false) ∧ d ≠ [] ∧ ∀ c ∈ d, isDig c = true

/-- The pattern the code actually implements: a non-digit prefix, then one
or more digits, then one arbitrary non-newline character (the unescaped
dot under Go's default flags), then the literal `jpg` at the end of the
name. -/
def wildcardPatternMatches (s : List Char) : Prop :=
  ∃ p d c, s = p ++ d ++ c :: jpgChars ∧ c ≠ '\n' ∧ (∀ x ∈ p, isDig x = false) ∧
    d ≠ [] ∧ ∀ x ∈ d, isDig x = true

/-! ## Theorems -/

/-! ### Decimal rendering lemmas -/

theorem decVal_decChar : ∀ m, m < 10 → decVal (decChar m) = m := by decide

theorem decChar_range : ∀ m, m < 10 → 48 ≤ (decChar m).toNat ∧ (decChar m).toNat ≤ 57 := by
  decide

theorem ofDec_concat (l : List Char) (c : Char) :
    ofDec (l ++ [c]) = 10 * ofDec l + decVal c := by
  simp [ofDec, List.foldl_append]

theorem ofDec_toDecAux : ∀ fuel n, n < fuel → ofDec (toDecAux fuel n) = n := by
  intro fuel
  induction fuel with
  | zero => intro n h; omega
  | succ f ih =>
    intro n h
    by_cases h10 : n < 10
    · have hv := decVal_decChar n h10
      simp [toDecAux, h10, ofDec, hv]
    · have hd : n / 10 < f := by
        have h1 : n / 10 < n := Nat.div_lt_self (by omega) (by omega)
        omega
      have hm : n % 10 < 10 := Nat.mod_lt n (by omega)
      simp only [toDecAux, h10, if_false, ofDec_concat, ih (n / 10) hd,
        decVal_decChar (n % 10) hm]
      omega

theorem ofDec_toDec (n : Nat) : ofDec (toDec n) = n :=
  ofDec_toDecAux (n + 1) n (by omega)

theorem ofDec_sprintf02d (n : Nat) : ofDec (sprintf02d n) = n := by
  by_cases h : n < 10
  · have h0 : (10 * 0 + decVal '0') = 0 := by decide
    calc ofDec (sprintf02d n)
        = List.foldl (fun acc c => 10 * acc + decVal c) (10 * 0 + decVal '0') (toDec n) := by
          simp [sprintf02d, h, ofDec]
      _ = ofDec (toDec n) := by rw [h0]; rfl
      _ = n := ofDec_toDec n
  · simp [sprintf02d, h, ofDec_toDec]

theorem toDecAux_digits : ∀ fuel n c, c ∈ toDecAux fuel n →
    48 ≤ c.toNat ∧ c.toNat ≤ 57 := by
  intro fuel
  induction fuel with
  | zero => intro n c hc; simp [toDecAux] at hc
  | succ f ih =>
    intro n c hc
    by_cases h10 : n < 10
    · simp [toDecAux, h10] at hc
      exact hc ▸ decChar_range n h10
    · simp [toDecAux, h10] at hc
      rcases hc with hc | hc
      · exact ih (n / 10) c hc
      · exact hc ▸ decChar_range (n % 10) (Nat.mod_lt n (by omega))

theorem sprintf02d_ne_underscore (n : Nat) : ∀ c ∈ sprintf02d n, c ≠ '_' := by
  intro c hc
  have hd : 48 ≤ c.toNat ∧ c.toNat ≤ 57 := by
    by_cases h : n < 10
    · simp [sprintf02d, h] at hc
      rcases hc with hc | hc
      · subst hc; decide
      · exact toDecAux_digits _ _ c hc
    · simp [sprintf02d, h] at hc
      exact toDecAux_digits _ _ c hc
  intro hu
  subst hu
  revert hd
  decide

theorem append_underscore_inj : ∀ (p1 p2 a b : List Char),
    (∀ c ∈ p1, c ≠ '_') → (∀ c ∈ p2, c ≠ '_') →
    p1 ++ '_' :: a = p2 ++ '_' :: b → p1 = p2 ∧ a = b := by
  intro p1
  induction p1 with
  | nil =>
    intro p2 a b _ h2 he
    cases p2 with
    | nil => simpa using he
    | cons x t =>
      simp only [List.nil_append, List.cons_append, List.cons.injEq] at he
      exact absurd he.1.symm (h2 x (by simp))
  | cons x t ih =>
    intro p2 a b h1 h2 he
    cases p2 with
    | nil =>
      simp only [List.nil_append, List.cons_append, List.cons.injEq] at he
      exact absurd he.1 (h1 x (by simp))
    | cons y u =>
      simp only [List.cons_append, List.cons.injEq] at he
      obtain ⟨hxy, he'⟩ := he
      obtain ⟨ht, ha⟩ := ih u a b (fun c hc => h1 c (by simp [hc]))
        (fun c hc => h2 c (by simp [hc])) he'
      exact ⟨by rw [hxy, ht], ha⟩

theorem localName_inj (o1 o2 : Nat) (f1 f2 : String)
    (h : localName o1 f1 = localName o2 f2) : o1 = o2 ∧ f1 = f2 := by
  have hd : sprintf02d o1 ++ '_' :: f1.data = sprintf02d o2 ++ '_' :: f2.data :=
    congrArg String.data h
  obtain ⟨hp, hf⟩ := append_underscore_inj _ _ _ _
    (sprintf02d_ne_underscore o1) (sprintf02d_ne_underscore o2) hd
  refine ⟨?_, ?_⟩
  · have := congrArg ofDec hp
    rwa [ofDec_sprintf02d, ofDec_sprintf02d] at this
  · cases f1; cases f2; exact congrArg String.mk hf

/-! ### Sessions-map lemmas -/

theorem lookupS_updateS (st : SessState) (s s' : String) (v : List (List Nat)) :
    lookupS (updateS st s v) s' = if s = s' then some v else lookupS st s' := by
  induction st with
  | nil => simp [updateS, lookupS]
  | cons kv rest ih =>
    obtain ⟨k, w⟩ := kv
    by_cases hk : k = s
    · subst hk
      by_cases hs : k = s'
      · simp [updateS, lookupS, hs]
      · simp [updateS, lookupS, hs]
    · by_cases hs : k = s'
      · subst hs
        have : ¬ s = k := fun h => hk h.symm
        simp [updateS, lookupS, hk, this]
      · simp [updateS, lookupS, hk, hs, ih]

theorem stepAssign_none (st : SessState) (fn : String)
    (hl : lookupS st (parseName fn).1 = none) :
    stepAssign st fn = (0, updateS st (parseName fn).1 [[(parseName fn).2]]) := by
  simp [stepAssign, hl]

theorem stepAssign_mem (st : SessState) (fn : String) (occs : List (List Nat))
    (hl : lookupS st (parseName fn).1 = some occs)
    (hm : (parseName fn).2 ∈ occs.getLastD []) :
    stepAssign st fn =
      (occs.length, updateS st (parseName fn).1 (occs ++ [[(parseName fn).2]])) := by
  have hm' : (parseName fn).2 ∈ occs.getLast?.getD [] := by
    rwa [List.getLastD_eq_getLast?] at hm
  simp [stepAssign, hl, hm']

theorem stepAssign_notMem (st : SessState) (fn : String) (occs : List (List Nat))
    (hl : lookupS st (parseName fn).1 = some occs)
    (hm : (parseName fn).2 ∉ occs.getLastD []) :
    stepAssign st fn = (occs.length - 1,
      updateS st (parseName fn).1
        (occs.dropLast ++ [occs.getLastD [] ++ [(parseName fn).2]])) := by
  have hm' : (parseName fn).2 ∉ occs.getLast?.getD [] := by
    rwa [List.getLastD_eq_getLast?] at hm
  simp [stepAssign, hl, hm']

theorem wfs_nil : WFS ([] : SessState) := by
  intro s occs h
  simp [lookupS] at h

theorem wfs_step (st : SessState) (fn : String) (h : WFS st) :
    WFS (stepAssign st fn).2 := by
  have key : ∀ v : List (List Nat), v ≠ [] →
      WFS (updateS st (parseName fn).1 v) := by
    intro v hv s occs hlk
    rw [lookupS_updateS] at hlk
    by_cases hs : (parseName fn).1 = s
    · simp [hs] at hlk
      exact hlk ▸ hv
    · simp [hs] at hlk
      exact h s occs hlk
  rcases hl : lookupS st (parseName fn).1 with _ | occs
  · rw [stepAssign_none st fn hl]
    exact key _ (by simp)
  · by_cases hm : (parseName fn).2 ∈ occs.getLastD []
    · rw [stepAssign_mem st fn occs hl hm]
      exact key _ (by simp)
    · rw [stepAssign_notMem st fn occs hl hm]
      exact key _ (by simp)

theorem recInv_step (st : SessState) (fn fn' : String) (o : Nat) (hwf : WFS st)
    (h : RecInv st fn' o) : RecInv (stepAssign st fn).2 fn' o := by
  obtain ⟨occs', hlk, hlen, hlast⟩ := h
  by_cases hss : (parseName fn).1 = (parseName fn').1
  · have hlk' : lookupS st (parseName fn).1 = some occs' := by rw [hss]; exact hlk
    by_cases hm : (parseName fn).2 ∈ occs'.getLastD []
    · rw [stepAssign_mem st fn occs' hlk' hm]
      refine ⟨occs' ++ [[(parseName fn).2]], ?_, ?_, ?_⟩
      · rw [lookupS_updateS]; simp [hss]
      · simp; omega
      · intro hEq
        simp at hEq
        omega
    · rw [stepAssign_notMem st fn occs' hlk' hm]
      have hne : occs' ≠ [] := hwf _ _ hlk'
      have hpos : 0 < occs'.length := List.length_pos.mpr hne
      refine ⟨occs'.dropLast ++ [occs'.getLastD [] ++ [(parseName fn).2]], ?_, ?_, ?_⟩
      · rw [lookupS_updateS]; simp [hss]
      · simp [List.length_dropLast]
        omega
      · intro hEq
        simp only [List.getLastD_concat]
        simp only [List.length_append, List.length_dropLast, List.length_singleton] at hEq
        have : o + 1 = occs'.length := by omega
        exact List.mem_append_left _ (hlast this)
  · refine ⟨occs', ?_, hlen, hlast⟩
    rcases hl : lookupS st (parseName fn).1 with _ | occs
    · rw [stepAssign_none st fn hl, lookupS_updateS]
      simp [hss, hlk]
    · by_cases hm : (parseName fn).2 ∈ occs.getLastD []
      · rw [stepAssign_mem st fn occs hl hm, lookupS_updateS]
        simp [hss, hlk]
      · rw [stepAssign_notMem st fn occs hl hm, lookupS_updateS]
        simp [hss, hlk]

theorem recInv_step_self (st : SessState) (fn : String) (hwf : WFS st) :
    RecInv (stepAssign st fn).2 fn (stepAssign st fn).1 := by
  rcases hl : lookupS st (parseName fn).1 with _ | occs
  · rw [stepAssign_none st fn hl]
    refine ⟨[[(parseName fn).2]], ?_, by simp, ?_⟩
    · rw [lookupS_updateS]; simp
    · intro _; simp [List.getLastD]
  · by_cases hm : (parseName fn).2 ∈ occs.getLastD []
    · rw [stepAssign_mem st fn occs hl hm]
      refine ⟨occs ++ [[(parseName fn).2]], ?_, by simp, ?_⟩
      · rw [lookupS_updateS]; simp
      · intro _
        rw [List.getLastD_concat]
        simp
    · rw [stepAssign_notMem st fn occs hl hm]
      have hne : occs ≠ [] := hwf _ _ hl
      have hpos : 0 < occs.length := List.length_pos.mpr hne
      refine ⟨occs.dropLast ++ [occs.getLastD [] ++ [(parseName fn).2]], ?_, ?_, ?_⟩
      · rw [lookupS_updateS]; simp
      · simp [List.length_dropLast]
      · intro _
        rw [List.getLastD_concat]
        exact List.mem_append_right _ (by simp)

theorem stepAssign_gt (st : SessState) (fn : String) (o : Nat) (_hwf : WFS st)
    (h : RecInv st fn o) : o < (stepAssign st fn).1 := by
  obtain ⟨occs, hlk, hlen, hlast⟩ := h
  by_cases hm : (parseName fn).2 ∈ occs.getLastD []
  · rw [stepAssign_mem st fn occs hlk hm]
    omega
  · rw [stepAssign_notMem st fn occs hlk hm]
    rcases Nat.lt_or_ge (o + 1) occs.length with h1 | h2
    · simp
      omega
    · have : o + 1 = occs.length := by omega
      exact absurd (hlast this) hm

/-! ### Run-level lemmas for the album sequencing -/

theorem runOccs_length (fns : List String) : ∀ st : SessState,
    (runOccs st fns).length = fns.length := by
  induction fns with
  | nil => intro st; simp [runOccs]
  | cons f rest ih => intro st; simp [runOccs, ih]

theorem runNames_length (fns : List String) : ∀ st : SessState,
    (runNames st fns).length = fns.length := by
  induction fns with
  | nil => intro st; simp [runNames]
  | cons f rest ih => intro st; simp [runNames, ih]

theorem runNames_getD (fns : List String) : ∀ (st : SessState) (i : Nat), i < fns.length →
    (runNames st fns).getD i "" = localName ((runOccs st fns).getD i 0) (fns.getD i "") := by
  induction fns with
  | nil => intro st i hi; simp at hi
  | cons f rest ih =>
    intro st i hi
    cases i with
    | zero => simp [runNames, runOccs]
    | succ i' =>
      simp only [runNames, runOccs, List.getD_cons_succ]
      exact ih (stepAssign st f).2 i' (by simpa using hi)

theorem runOccs_gt (fns : List String) : ∀ (st : SessState) (fn : String) (o : Nat),
    WFS st → RecInv st fn o →
    ∀ j, j < fns.length → fns.getD j "" = fn → o < (runOccs st fns).getD j 0 := by
  induction fns with
  | nil => intro st fn o _ _ j hj; simp at hj
  | cons f rest ih =>
    intro st fn o hwf hrec j hj hfj
    cases j with
    | zero =>
      simp only [List.getD_cons_zero] at hfj
      simp only [runOccs, List.getD_cons_zero]
      exact stepAssign_gt st f o hwf (by rw [hfj]; exact hrec)
    | succ j' =>
      simp only [List.getD_cons_succ] at hfj
      simp only [runOccs, List.getD_cons_succ]
      exact ih (stepAssign st f).2 fn o (wfs_step st f hwf)
        (recInv_step st f fn o hwf hrec) j' (by simpa using hj) hfj

theorem runOccs_pairwise (fns : List String) : ∀ st : SessState, WFS st →
    ∀ i j, i < j → j < fns.length → fns.getD i "" = fns.getD j "" →
    (runOccs st fns).getD i 0 < (runOccs st fns).getD j 0 := by
  induction fns with
  | nil => intro st _ i j _ hj; simp at hj
  | cons f rest ih =>
    intro st hwf i j hij hj hEq
    cases i with
    | zero =>
      cases j with
      | zero => omega
      | succ j' =>
        simp only [List.getD_cons_zero, List.getD_cons_succ] at hEq
        simp only [runOccs, List.getD_cons_zero, List.getD_cons_succ]
        exact runOccs_gt rest (stepAssign st f).2 f (stepAssign st f).1
          (wfs_step st f hwf) (recInv_step_self st f hwf) j'
          (by simpa using hj) hEq.symm
    | succ i' =>
      cases j with
      | zero => omega
      | succ j' =>
        simp only [List.getD_cons_succ] at hEq
        simp only [runOccs, List.getD_cons_succ]
        exact ih (stepAssign st f).2 (wfs_step st f hwf) i' j' (by omega)
          (by simpa using hj) hEq

theorem getD_eq_get {α : Type} : ∀ (l : List α) (i : Nat) (d : α) (h : i < l.length),
    l.getD i d = l.get ⟨i, h⟩ := by
  intro l
  induction l with
  | nil => intro i d h; simp at h
  | cons x t ih =>
    intro i d h
    cases i with
    | zero => simp
    | succ i' => simpa using ih i' d (by simpa using h)

theorem assignedNames_get_ne (fns : List String) (i j : Fin (assignedNames fns).length)
    (hij : i < j) : (assignedNames fns).get i ≠ (assignedNames fns).get j := by
  have hlen : (assignedNames fns).length = fns.length := runNames_length fns []
  have hi : (i : Nat) < fns.length := hlen ▸ i.isLt
  have hj : (j : Nat) < fns.length := hlen ▸ j.isLt
  intro hcontra
  have e1 : (assignedNames fns).get i =
      localName ((assignedOccs fns).getD (i : Nat) 0) (fns.getD (i : Nat) "") := by
    rw [← getD_eq_get (assignedNames fns) (i : Nat) "" i.isLt]
    exact runNames_getD fns [] (i : Nat) hi
  have e2 : (assignedNames fns).get j =
      localName ((assignedOccs fns).getD (j : Nat) 0) (fns.getD (j : Nat) "") := by
    rw [← getD_eq_get (assignedNames fns) (j : Nat) "" j.isLt]
    exact runNames_getD fns [] (j : Nat) hj
  rw [e1, e2] at hcontra
  obtain ⟨ho, hf⟩ := localName_inj _ _ _ _ hcontra
  have hlt := runOccs_pairwise fns [] wfs_nil (i : Nat) (j : Nat) hij hj hf
  rw [assignedOccs] at ho
  omega

/-- C1: within a single album processed from the empty session state, the
assigned local file identities `{occurrencePrefix}_{remoteFileName}` are
pairwise distinct (no two images ever receive the same local name), and
repeated occurrences of the same remote file name are assigned strictly
increasing occurrence counts. -/
theorem c1_local_identity_unique (fns : List String) :
    (assignedNames fns).Nodup ∧
    ∀ i j, i < j → j < fns.length → fns.getD i "" = fns.getD j "" →
      (assignedOccs fns).getD i 0 < (assignedOccs fns).getD j 0 := by
  refine ⟨?_, fun i j hij hj hEq => runOccs_pairwise fns [] wfs_nil i j hij hj hEq⟩
  rw [List.nodup_iff_injective_get]
  intro i j hcontra
  rcases lt_trichotomy i j with h | h | h
  · exact absurd hcontra (assignedNames_get_ne fns i j h)
  · exact h
  · exact absurd hcontra.symm (assignedNames_get_ne fns j i h)

/-- Witness for C1 at a concrete input: the album `[A1.jpg, A1.jpg]` gets
distinct local names and strictly increasing occurrence numbers for the
repeated file name. -/
theorem c1_witness :
    (assignedNames ["A1.jpg", "A1.jpg"]).Nodup ∧
    (assignedOccs ["A1.jpg", "A1.jpg"]).getD 0 0 <
      (assignedOccs ["A1.jpg", "A1.jpg"]).getD 1 0 :=
  ⟨(c1_local_identity_unique ["A1.jpg", "A1.jpg"]).1,
   (c1_local_identity_unique ["A1.jpg", "A1.jpg"]).2 0 1 (by omega) (by decide) (by decide)⟩

/-- C2: from the empty session state the filenames `A1.jpg, A2.jpg,
A1.jpg` get occurrence prefixes `00, 00, 01` (the repeated index 1 starts
a new occurrence), and `cover.jpg, cover.jpg` get `00, 01` (a name
without a numeric suffix parses with index 0, so each repeat starts a new
occurrence). -/
theorem c2_occurrence_rollover :
    runPfx [] ["A1.jpg", "A2.jpg", "A1.jpg"] = ["00", "00", "01"] ∧
    runPfx [] ["cover.jpg", "cover.jpg"] = ["00", "01"] := by
  constructor <;> decide

/-! ### Retry-loop lemmas (claim C3) -/

theorem reqLoop_5xx_step (resp : Nat → HResp) (attempt fuel : Nat) (c : Nat) (b : List Nat)
    (h : resp attempt = .status c b) (hc : 500 ≤ c) (hc' : c < 600)
    (hne : attempt ≠ retries) :
    reqLoop resp attempt (fuel + 1) =
      ((reqLoop resp (attempt + 1) fuel).1,
       (reqLoop resp (attempt + 1) fuel).2.1 + 1,
       500 :: (reqLoop resp (attempt + 1) fuel).2.2) := by
  simp only [reqLoop, h]
  rw [if_pos (by omega), if_pos ⟨hc, hc'⟩, if_neg hne]

theorem reqLoop_5xx_last (resp : Nat → HResp) (fuel : Nat) (c : Nat) (b : List Nat)
    (h : resp retries = .status c b) (hc : 500 ≤ c) (hc' : c < 600) :
    reqLoop resp retries (fuel + 1) = (.maxAttemptsErr c, 1, []) := by
  simp only [reqLoop, h]
  rw [if_pos (by omega), if_pos ⟨hc, hc'⟩]
  simp

/-- C3: if every GET attempt is answered with a 5xx status, `Req` performs
exactly `1 + retries = 4` attempts, sleeping a constant 500 ms between
consecutive attempts, and fails with the error carrying the last observed
status code. -/
theorem c3_retry_bound (resp : Nat → HResp)
    (h : ∀ a, a ≤ retries → ∃ c b, resp a = HResp.status c b ∧ 500 ≤ c ∧ c < 600) :
    ∃ cl bl, resp 3 = HResp.status cl bl ∧
      reqTrace resp = (ReqOut.maxAttemptsErr cl, 4, [500, 500, 500]) := by
  obtain ⟨c0, b0, h0, h0a, h0b⟩ := h 0 (by decide)
  obtain ⟨c1, b1, h1, h1a, h1b⟩ := h 1 (by decide)
  obtain ⟨c2, b2, h2, h2a, h2b⟩ := h 2 (by decide)
  obtain ⟨c3, b3, h3, h3a, h3b⟩ := h 3 (by decide)
  refine ⟨c3, b3, h3, ?_⟩
  have e3 : reqLoop resp 3 1 = (.maxAttemptsErr c3, 1, []) :=
    reqLoop_5xx_last resp 0 c3 b3 h3 h3a h3b
  have e2 : reqLoop resp 2 2 = (.maxAttemptsErr c3, 2, [500]) := by
    rw [reqLoop_5xx_step resp 2 1 c2 b2 h2 h2a h2b (by decide), e3]
  have e1 : reqLoop resp 1 3 = (.maxAttemptsErr c3, 3, [500, 500]) := by
    rw [reqLoop_5xx_step resp 1 2 c1 b1 h1 h1a h1b (by decide), e2]
  have e0 : reqLoop resp 0 4 = (.maxAttemptsErr c3, 4, [500, 500, 500]) := by
    rw [reqLoop_5xx_step resp 0 3 c0 b0 h0 h0a h0b (by decide), e1]
  exact e0

/-- Witness for C3: with every attempt answered 503, the request makes 4
attempts, sleeps 500 ms three times, and fails carrying status 503. -/
theorem c3_witness :
    reqTrace (fun _ => HResp.status 503 []) =
      (ReqOut.maxAttemptsErr 503, 4, [500, 500, 500]) := by
  obtain ⟨c, b, hc, hr⟩ := c3_retry_bound (fun _ => HResp.status 503 [])
    (fun a _ => ⟨503, [], rfl, by omega, by omega⟩)
  have hc' : HResp.status 503 [] = HResp.status c b := hc
  injection hc' with hcc hbb
  subst hcc
  exact hr

/-! ### Pagination lemmas (claims C4, C5, C10) -/

theorem runAlbumLoop_exit (env : Nat → FetchResult) (k : Nat) (start tot : Int)
    (st : SessState) (fuel : Nat) (hge : ¬ start < tot) :
    runAlbumLoop env k start tot st (fuel + 1) = ([], true) := by
  simp only [runAlbumLoop, if_neg hge]

theorem runFolderLoop_exit (env : Nat → FetchResult) (k : Nat) (start tot : Int)
    (fuel : Nat) (hge : ¬ start < tot) :
    runFolderLoop env k start tot (fuel + 1) = ([], true) := by
  simp only [runFolderLoop, if_neg hge]

theorem runAlbumLoop_page_step (env : Nat → FetchResult) (k : Nat) (start tot t c : Int)
    (st : SessState) (imgs : List String) (fuel : Nat)
    (hlt : start < tot) (he : env k = .page t c imgs) :
    runAlbumLoop env k start tot st (fuel + 1) =
      ((runAlbumLoop env (k + 1) (start + c) (if tot = unknownTotal then t else tot)
          (imgs.foldl (fun s fn => (stepAssign s fn).2) st) fuel).1.cons start,
       (runAlbumLoop env (k + 1) (start + c) (if tot = unknownTotal then t else tot)
          (imgs.foldl (fun s fn => (stepAssign s fn).2) st) fuel).2) := by
  simp only [runAlbumLoop, he, if_pos hlt]

theorem runFolderLoop_page_step (env : Nat → FetchResult) (k : Nat) (start tot t c : Int)
    (imgs : List String) (fuel : Nat) (hlt : start < tot) (he : env k = .page t c imgs) :
    runFolderLoop env k start tot (fuel + 1) =
      ((runFolderLoop env (k + 1) (start + c) t fuel).1.cons start,
       (runFolderLoop env (k + 1) (start + c) t fuel).2) := by
  simp only [runFolderLoop, he, if_pos hlt]

/-- C4: against fully successful pages reporting total 120 and count 50,
both the album-level and the folder-level pagination loop issue exactly 3
page fetches, at start values 1, 51 and 101 in that order, and stop as
soon as the cursor reaches `start >= total` (any fuel at least 4 gives the
same completed trace). -/
theorem c4_pagination_three_fetches (f : Nat) :
    runAlbumLoop pages120 0 1 unknownTotal [] (f + 4) = ([1, 51, 101], true) ∧
    runFolderLoop pages120 0 1 unknownTotal (f + 4) = ([1, 51, 101], true) := by
  constructor
  · have e3 : runAlbumLoop pages120 3 151 120 [] (f + 1) = ([], true) :=
      runAlbumLoop_exit pages120 3 151 120 [] f (by decide)
    have e2 : runAlbumLoop pages120 2 101 120 [] (f + 2) = ([101], true) := by
      rw [runAlbumLoop_page_step pages120 2 101 120 120 50 [] [] (f + 1) (by decide) rfl]
      simp [unknownTotal, e3]
    have e1 : runAlbumLoop pages120 1 51 120 [] (f + 3) = ([51, 101], true) := by
      rw [runAlbumLoop_page_step pages120 1 51 120 120 50 [] [] (f + 2) (by decide) rfl]
      simp [unknownTotal, e2]
    rw [runAlbumLoop_page_step pages120 0 1 unknownTotal 120 50 [] [] (f + 3)
      (by decide) rfl]
    simp [unknownTotal, e1]
  · have e3 : runFolderLoop pages120 3 151 120 (f + 1) = ([], true) :=
      runFolderLoop_exit pages120 3 151 120 f (by decide)
    have e2 : runFolderLoop pages120 2 101 120 (f + 2) = ([101], true) := by
      rw [runFolderLoop_page_step pages120 2 101 120 120 50 [] (f + 1) (by decide) rfl]
      simp [e3]
    have e1 : runFolderLoop pages120 1 51 120 (f + 3) = ([51, 101], true) := by
      rw [runFolderLoop_page_step pages120 1 51 120 120 50 [] (f + 2) (by decide) rfl]
      simp [e2]
    rw [runFolderLoop_page_step pages120 0 1 unknownTotal 120 50 [] (f + 3)
      (by decide) rfl]
    simp [e1]

/-- C5: at both the album and the folder level, when an iteration fails
(URL construction failure, or a fetch/decode failure), the loop continues
with the same `start`, `total` and session state: the cursor is never
advanced and the same page is retried; a fetch failure is traced at the
unchanged `start`. -/
theorem c5_failed_fetch_same_page (env : Nat → FetchResult) (k : Nat)
    (start tot : Int) (st : SessState) (fuel : Nat) (hlt : start < tot) :
    (env k = .urlFail →
      runAlbumLoop env k start tot st (fuel + 1) =
        runAlbumLoop env (k + 1) start tot st fuel ∧
      runFolderLoop env k start tot (fuel + 1) =
        runFolderLoop env (k + 1) start tot fuel) ∧
    (env k = .fetchFail →
      runAlbumLoop env k start tot st (fuel + 1) =
        ((runAlbumLoop env (k + 1) start tot st fuel).1.cons start,
         (runAlbumLoop env (k + 1) start tot st fuel).2) ∧
      runFolderLoop env k start tot (fuel + 1) =
        ((runFolderLoop env (k + 1) start tot fuel).1.cons start,
         (runFolderLoop env (k + 1) start tot fuel).2)) := by
  constructor
  · intro he
    constructor
    · simp only [runAlbumLoop, he, if_pos hlt]
    · simp only [runFolderLoop, he, if_pos hlt]
  · intro he
    constructor
    · simp only [runAlbumLoop, he, if_pos hlt]
    · simp only [runFolderLoop, he, if_pos hlt]

/-- Witness for C5 at a concrete failing environment. -/
theorem c5_witness :
    runAlbumLoop (fun _ => FetchResult.fetchFail) 0 1 2 [] 1 =
      ((runAlbumLoop (fun _ => FetchResult.fetchFail) 1 1 2 [] 0).1.cons 1,
       (runAlbumLoop (fun _ => FetchResult.fetchFail) 1 1 2 [] 0).2) ∧
    runFolderLoop (fun _ => FetchResult.fetchFail) 0 1 2 1 =
      ((runFolderLoop (fun _ => FetchResult.fetchFail) 1 1 2 0).1.cons 1,
       (runFolderLoop (fun _ => FetchResult.fetchFail) 1 1 2 0).2) :=
  (c5_failed_fetch_same_page (fun _ => FetchResult.fetchFail) 0 1 2 [] 0 (by decide)).2 rfl

/-! ### Termination lemmas for the album page loop (claim C10) -/

theorem albumLoop_term_fixed (env : Nat → FetchResult)
    (hsucc : ∀ k, ∃ t c imgs, env k = .page t c imgs ∧ 1 ≤ c) :
    ∀ (μ k : Nat) (start tot : Int) (st : SessState), tot ≠ unknownTotal →
      (tot - start).toNat ≤ μ →
      ∃ fuel, (runAlbumLoop env k start tot st fuel).2 = true := by
  intro μ
  induction μ with
  | zero =>
    intro k start tot st _ hμ
    refine ⟨1, ?_⟩
    rw [runAlbumLoop_exit env k start tot st 0 (by omega)]
  | succ m ih =>
    intro k start tot st hne hμ
    by_cases hlt : start < tot
    · obtain ⟨t, c, imgs, he, hc⟩ := hsucc k
      obtain ⟨fuel, hf⟩ := ih (k + 1) (start + c) tot
        (imgs.foldl (fun s fn => (stepAssign s fn).2) st) hne (by omega)
      refine ⟨fuel + 1, ?_⟩
      rw [runAlbumLoop_page_step env k start tot t c st imgs fuel hlt he]
      simpa [if_neg hne] using hf
    · exact ⟨1, by rw [runAlbumLoop_exit env k start tot st 0 hlt]⟩

theorem albumLoop_term_sentinel (env : Nat → FetchResult)
    (hsucc : ∀ k, ∃ t c imgs, env k = .page t c imgs ∧ 1 ≤ c) :
    ∀ (μ k : Nat) (start : Int) (st : SessState),
      (unknownTotal - start).toNat ≤ μ →
      ∃ fuel, (runAlbumLoop env k start unknownTotal st fuel).2 = true := by
  intro μ
  induction μ with
  | zero =>
    intro k start st hμ
    refine ⟨1, ?_⟩
    rw [runAlbumLoop_exit env k start unknownTotal st 0 (by omega)]
  | succ m ih =>
    intro k start st hμ
    by_cases hlt : start < unknownTotal
    · obtain ⟨t, c, imgs, he, hc⟩ := hsucc k
      by_cases htt : t = unknownTotal
      · subst htt
        obtain ⟨fuel, hf⟩ := ih (k + 1) (start + c)
          (imgs.foldl (fun s fn => (stepAssign s fn).2) st) (by omega)
        refine ⟨fuel + 1, ?_⟩
        rw [runAlbumLoop_page_step env k start unknownTotal unknownTotal c st imgs fuel hlt he]
        simpa using hf
      · obtain ⟨fuel, hf⟩ := albumLoop_term_fixed env hsucc ((t - (start + c)).toNat)
          (k + 1) (start + c) t (imgs.foldl (fun s fn => (stepAssign s fn).2) st)
          htt (le_refl _)
        refine ⟨fuel + 1, ?_⟩
        rw [runAlbumLoop_page_step env k start unknownTotal t c st imgs fuel hlt he]
        simpa using hf
    · exact ⟨1, by rw [runAlbumLoop_exit env k start unknownTotal st 0 hlt]⟩

theorem albumLoop_stuck_known : ∀ (fuel k : Nat) (st : SessState),
    runAlbumLoop pagesStuck k 1 120 st fuel = (List.replicate fuel 1, false) := by
  intro fuel
  induction fuel with
  | zero => intro k st; simp [runAlbumLoop, List.replicate]
  | succ m ih =>
    intro k st
    rw [runAlbumLoop_page_step pagesStuck k 1 120 120 0 st [] m (by decide) rfl]
    simp [unknownTotal, ih (k + 1) st, List.replicate]

theorem albumLoop_stuck : ∀ (fuel k : Nat) (st : SessState),
    runAlbumLoop pagesStuck k 1 unknownTotal st fuel = (List.replicate fuel 1, false) := by
  intro fuel k st
  cases fuel with
  | zero => simp [runAlbumLoop, List.replicate]
  | succ m =>
    rw [runAlbumLoop_page_step pagesStuck k 1 unknownTotal 120 0 st [] m (by decide) rfl]
    simp [albumLoop_stuck_known m (k + 1) st, List.replicate]

/-- C10: the album page loop terminates exactly when pages make cursor
progress.  Forward: for every environment whose every page response is
successful with `Count >= 1`, the loop from the initial state terminates
(some finite fuel reaches the exit condition, so only finitely many
fetches occur).  Converse: against pages that decode successfully with
`Total = 120` but `Count = 0`, the cursor never advances and the loop
re-fetches start 1 forever — for every fuel the trace is that many fetches
of the same page and the exit condition is never reached. -/
theorem c10_termination_iff_progress :
    (∀ env : Nat → FetchResult,
      (∀ k, ∃ t c imgs, env k = .page t c imgs ∧ 1 ≤ c) →
      ∀ st : SessState, ∃ fuel, (runAlbumLoop env 0 1 unknownTotal st fuel).2 = true) ∧
    (∀ (fuel k : Nat) (st : SessState),
      runAlbumLoop pagesStuck k 1 unknownTotal st fuel =
        (List.replicate fuel 1, false)) := by
  constructor
  · intro env hsucc st
    exact albumLoop_term_sentinel env hsucc ((unknownTotal - 1).toNat) 0 1 st (le_refl _)
  · exact albumLoop_stuck

/-- Witness for C10: the forward direction applied to the concrete
all-successful environment with count 50. -/
theorem c10_witness :
    ∃ fuel, (runAlbumLoop pages120 0 1 unknownTotal [] fuel).2 = true :=
  c10_termination_iff_progress.1 pages120 (fun _ => ⟨120, 50, [], rfl, by omega⟩) []

/-! ### Download-or-skip step (claim C6) and hash/URL resolution (claim C8) -/

/-- C6: when the target local file exists and its content hash equals the
remote record's hash, the download step returns Skipped and performs no
network fetch of the image bytes; on a hash mismatch, or when the file is
absent, the bytes are fetched and written (Downloaded when the fetch and
the write succeed). -/
theorem c6_hash_skip (hashHex : List Nat → String) (bytes : List Nat)
    (remoteHash : String) (net : Option (List Nat)) (writeOk : Bool) :
    (hashHex bytes = remoteHash →
      ensure hashHex (.content bytes) remoteHash net writeOk = (.Skipped, false)) ∧
    (∀ data, hashHex bytes ≠ remoteHash →
      ensure hashHex (.content bytes) remoteHash (some data) true = (.Downloaded, true)) ∧
    (∀ data, ensure hashHex .absent remoteHash (some data) true = (.Downloaded, true)) := by
  refine ⟨fun h => by simp [ensure, h],
          fun data h => by simp [ensure, h, downloadStep],
          fun data => by simp [ensure, downloadStep]⟩

/-- Witness for C6 at concrete inputs: a matching hash is skipped without
a fetch; a mismatching hash and an absent file are downloaded. -/
theorem c6_witness :
    ensure (fun _ => "h") (.content [1]) "h" (some [2]) true = (.Skipped, false) ∧
    ensure (fun _ => "h") (.content [1]) "x" (some [2]) true = (.Downloaded, true) ∧
    ensure (fun _ => "h") .absent "x" (some [2]) true = (.Downloaded, true) :=
  ⟨(c6_hash_skip (fun _ => "h") [1] "h" (some [2]) true).1 rfl,
   (c6_hash_skip (fun _ => "h") [1] "x" (some [2]) true).2.1 [2] (by decide),
   (c6_hash_skip (fun _ => "h") [1] "x" (some [2]) true).2.2 [2]⟩

/-- C8 counterexample: for an image with an empty `ArchivedUri` whose
indirect reference is absent from the expansions table, `imageHashURL`
does not fail with anything like UnresolvedContent: it returns the empty
hash and empty URL (the Go zero value of the map read), so the image is
processed with an empty hash and URL. -/
theorem c8_counterexample :
    imageHashURL [] ⟨"x.jpg", "", "", "/api/v2/image/abc"⟩ = ("", "") := rfl

/-- C8 amended: resolution prefers the direct archived hash and URL when
`ArchivedUri` is non-empty, otherwise consults the page-level expansions
table; when that lookup is absent the image proceeds with an empty hash
and an empty URL (the Go zero value) — no UnresolvedContent failure
exists in the code. -/
theorem c8_amended (expansions : List (String × ImageSize)) (img : ImageRec) :
    (img.ArchivedUri ≠ "" →
      imageHashURL expansions img = (img.ArchivedMD5, img.ArchivedUri)) ∧
    (img.ArchivedUri = "" → ∀ sz, lookupExp expansions img.LargestImageUri = some sz →
      imageHashURL expansions img = (sz.MD5, sz.Url)) ∧
    (img.ArchivedUri = "" → lookupExp expansions img.LargestImageUri = none →
      imageHashURL expansions img = ("", "")) := by
  refine ⟨fun h => by simp [imageHashURL, h],
          fun h sz hs => by simp [imageHashURL, h, hs],
          fun h hn => by simp [imageHashURL, h, hn]⟩

/-- Witness for C8 at concrete inputs: the direct field is preferred and a
present indirect reference is resolved through the table. -/
theorem c8_witness :
    imageHashURL [] ⟨"x.jpg", "/a/uri", "deadbeef", ""⟩ = ("deadbeef", "/a/uri") ∧
    imageHashURL [("/e", ⟨"/u", "m5"⟩)] ⟨"x.jpg", "", "", "/e"⟩ = ("m5", "/u") :=
  ⟨(c8_amended [] ⟨"x.jpg", "/a/uri", "deadbeef", ""⟩).1 (by decide),
   (c8_amended [("/e", ⟨"/u", "m5"⟩)] ⟨"x.jpg", "", "", "/e"⟩).2.1 rfl ⟨"/u", "m5"⟩ rfl⟩

/-! ### Per-image failure propagation (claim C9) -/

/-- C9 counterexample: the file name `A9999999999999999999.jpg` matches
the regex with a 19-digit index whose value exceeds the int64 maximum, so
`strconv.Atoi` fails and the code calls `log.Fatalf` (src/main.go line
346): processing this single image terminates the whole process instead
of continuing with the next image. -/
theorem c9_counterexample :
    processImage (fun _ => "") [] [] ⟨"A9999999999999999999.jpg", "", "", ""⟩
        LocalFile.absent none true = ImgStep.fatal ∧
    atoiDigits "9999999999999999999".data = none :=
  ⟨rfl, rfl⟩

/-- C9 amended: whenever the regex match (if any) yields digits whose
value fits in int64, processing one image never aborts: unresolvable
content, IO failures and download failures all produce a continue step so
the walk proceeds with the next image; only an int64-overflowing digit run
reaches `log.Fatalf`. -/
theorem c9_amended (hashHex : List Nat → String) (st : SessState)
    (expansions : List (String × ImageSize)) (img : ImageRec) (lf : LocalFile)
    (net : Option (List Nat)) (writeOk : Bool)
    (h : ∀ pd, reMatch img.FileName.data = some pd → ofDec pd.2 ≤ maxInt64) :
    ∃ st' out, processImage hashHex st expansions img lf net writeOk =
      ImgStep.continueWith st' out := by
  rcases hm : reMatch img.FileName.data with _ | pd
  · simp only [processImage, hm]
    exact ⟨_, _, rfl⟩
  · have hle := h pd hm
    simp only [processImage, hm, atoiDigits, if_pos hle]
    exact ⟨_, _, rfl⟩

/-- Witness for C9 at a concrete input: a non-matching file name
continues (here with an unresolved-content download failure, since no
hash or URL is available and the network answers nothing). -/
theorem c9_witness :
    ∃ st' out, processImage (fun _ => "") [] [] ⟨"cover.jpg", "", "", ""⟩
      LocalFile.absent none true = ImgStep.continueWith st' out :=
  c9_amended (fun _ => "") [] [] ⟨"cover.jpg", "", "", ""⟩ LocalFile.absent none true
    (fun pd hm => by
      rw [show reMatch "cover.jpg".data = none from rfl] at hm
      exact Option.noConfusion hm)

/-! ### Regex characterization (claim C7) -/

theorem takeWhile_all_append (q : Char → Bool) (p l : List Char)
    (hp : ∀ x ∈ p, q x = true) : (p ++ l).takeWhile q = p ++ l.takeWhile q := by
  induction p with
  | nil => simp
  | cons a t ih =>
    rw [List.cons_append, List.takeWhile_cons_of_pos (hp a (by simp)), List.cons_append,
      ih (fun x hx => hp x (by simp [hx]))]

theorem dropWhile_all_append (q : Char → Bool) (p l : List Char)
    (hp : ∀ x ∈ p, q x = true) : (p ++ l).dropWhile q = l.dropWhile q := by
  induction p with
  | nil => simp
  | cons a t ih =>
    rw [List.cons_append, List.dropWhile_cons_of_pos (hp a (by simp))]
    exact ih (fun x hx => hp x (by simp [hx]))

theorem reMatch_decomp (p d : List Char) (c : Char)
    (hp : ∀ x ∈ p, isDig x = false) (hd : ∀ x ∈ d, isDig x = true) (hne : d ≠ [])
    (hcnl : c ≠ '\n') :
    reMatch (p ++ (d ++ c :: jpgChars)) = some (p, d) := by
  have hq : ∀ x ∈ p, (fun ch => !(isDig ch)) x = true := by
    intro x hx; simp [hp x hx]
  have hdq : (d ++ c :: jpgChars).takeWhile (fun ch => !(isDig ch)) = [] := by
    rcases d with _ | ⟨x, t⟩
    · exact absurd rfl hne
    · rw [List.cons_append, List.takeWhile_cons_of_neg (by simp [hd x (by simp)])]
  have hdq' : (d ++ c :: jpgChars).dropWhile (fun ch => !(isDig ch)) =
      d ++ c :: jpgChars := by
    rcases d with _ | ⟨x, t⟩
    · exact absurd rfl hne
    · rw [List.cons_append, List.dropWhile_cons_of_neg (by simp [hd x (by simp)])]
  have e1 : (p ++ (d ++ c :: jpgChars)).takeWhile (fun ch => !(isDig ch)) = p := by
    rw [takeWhile_all_append _ p _ hq, hdq, List.append_nil]
  have e2 : (p ++ (d ++ c :: jpgChars)).dropWhile (fun ch => !(isDig ch)) =
      d ++ c :: jpgChars := by
    rw [dropWhile_all_append _ p _ hq, hdq']
  rw [reMatch, e1, e2]
  have e3 : (d ++ c :: jpgChars).takeWhile isDig = d ++ (c :: jpgChars).takeWhile isDig :=
    takeWhile_all_append isDig d _ hd
  have e4 : (d ++ c :: jpgChars).dropWhile isDig = (c :: jpgChars).dropWhile isDig := by
    rcases d with _ | ⟨x, t⟩
    · exact absurd rfl hne
    · exact dropWhile_all_append isDig (x :: t) _ hd
  by_cases hc : isDig c = true
  · have e5 : (c :: jpgChars).takeWhile isDig = [c] := by
      rw [List.takeWhile_cons_of_pos hc]
      rfl
    have e6 : (c :: jpgChars).dropWhile isDig = jpgChars := by
      rw [List.dropWhile_cons_of_pos hc]
      rfl
    have hdl : 1 ≤ d.length := List.length_pos.mpr hne
    rw [e3, e4, e5, e6, reMatchCore, if_neg (by simp [jpgChars]),
      if_pos ⟨rfl, by simp; omega⟩, List.dropLast_concat]
  · have e5 : (c :: jpgChars).takeWhile isDig = [] := List.takeWhile_cons_of_neg hc
    have e6 : (c :: jpgChars).dropWhile isDig = c :: jpgChars :=
      List.dropWhile_cons_of_neg hc
    rw [e3, e4, e5, e6, List.append_nil, reMatchCore,
      if_pos ⟨by simp [jpgChars], by simp, by simpa using hcnl, hne⟩]

theorem reMatch_some_wildcard (s : List Char) (pd : List Char × List Char)
    (h : reMatch s = some pd) : wildcardPatternMatches s := by
  have hs : s = s.takeWhile (fun ch => !(isDig ch)) ++
      ((s.dropWhile (fun ch => !(isDig ch))).takeWhile isDig ++
       (s.dropWhile (fun ch => !(isDig ch))).dropWhile isDig) := by
    rw [List.takeWhile_append_dropWhile, List.takeWhile_append_dropWhile]
  have hpnd : ∀ x ∈ s.takeWhile (fun ch => !(isDig ch)), isDig x = false := by
    intro x hx
    have := List.mem_takeWhile_imp hx
    simpa using this
  have hd0d : ∀ x ∈ (s.dropWhile (fun ch => !(isDig ch))).takeWhile isDig,
      isDig x = true := fun x hx => List.mem_takeWhile_imp hx
  rw [reMatch, reMatchCore] at h
  split at h
  · rename_i hcond
    obtain ⟨hlen, hdrop, hnl, hne⟩ := hcond
    rcases hr : (s.dropWhile (fun ch => !(isDig ch))).dropWhile isDig with _ | ⟨c, r'⟩
    · rw [hr] at hlen
      simp at hlen
    · rw [hr] at hdrop hnl
      have hr' : r' = jpgChars := by simpa using hdrop
      have hcnl : c ≠ '\n' := by simpa using hnl
      refine ⟨s.takeWhile (fun ch => !(isDig ch)),
        (s.dropWhile (fun ch => !(isDig ch))).takeWhile isDig, c, ?_, hcnl, hpnd, hne,
        hd0d⟩
      rw [← hr', List.append_assoc, ← hr]
      exact hs
  · rename_i hcond1
    split at h
    · rename_i hcond
      obtain ⟨hjpg, hlen⟩ := hcond
      have hne : (s.dropWhile (fun ch => !(isDig ch))).takeWhile isDig ≠ [] := by
        intro hc
        rw [hc] at hlen
        simp at hlen
      have hdig : isDig (((s.dropWhile (fun ch => !(isDig ch))).takeWhile isDig).getLast
          hne) = true :=
        hd0d _ (List.getLast_mem hne)
      refine ⟨s.takeWhile (fun ch => !(isDig ch)),
        ((s.dropWhile (fun ch => !(isDig ch))).takeWhile isDig).dropLast,
        ((s.dropWhile (fun ch => !(isDig ch))).takeWhile isDig).getLast hne,
        ?_, ?_, hpnd, ?_, ?_⟩
      · have hrec := List.dropLast_append_getLast hne
        rw [List.append_assoc,
          show ((s.dropWhile (fun ch => !(isDig ch))).takeWhile isDig).getLast hne ::
              jpgChars =
            [((s.dropWhile (fun ch => !(isDig ch))).takeWhile isDig).getLast hne] ++
              jpgChars from rfl,
          ← List.append_assoc
            ((s.dropWhile (fun ch => !(isDig ch))).takeWhile isDig).dropLast,
          hrec, ← hjpg]
        exact hs
      · intro hcn
        rw [hcn] at hdig
        exact absurd hdig (by decide)
      · intro hc
        have hlc := congrArg List.length hc
        simp [List.length_dropLast] at hlc
        omega
      · intro x hx
        exact hd0d x (List.dropLast_subset _ hx)
    · exact Option.noConfusion h

theorem spec_suffix (s : List Char) (h : specPatternMatches s) :
    List.IsSuffix dotJpg s := by
  obtain ⟨p, d, hs, _, _, _⟩ := h
  exact ⟨p ++ d, by rw [hs, List.append_assoc]⟩

/-- C7 counterexample: the file name `A1Xjpg` does not have the literal
suffix `.jpg`, so by the claim it should fall back to
(sessionKey `A1Xjpg`, index 0); but the code's regex matches it (the
unescaped dot matches `X`) and parses it as (sessionKey `A`, index 1). -/
theorem c7_counterexample :
    parseName "A1Xjpg" = ("A", 1) ∧
    ¬ specPatternMatches "A1Xjpg".data ∧
    parseName "A1Xjpg" ≠ ("A1Xjpg", 0) := by
  refine ⟨rfl, ?_, by decide⟩
  intro h
  exact absurd (spec_suffix _ h) (by decide)

/-- C7 amended: a file name is parsed into (sessionKey = non-digit
prefix, index = parsed digits) exactly when it is a non-digit prefix, one
or more digits, then one arbitrary character other than a newline
followed by the literal `jpg` at the end (the dot of the pattern `.jpg`
is unescaped, and Go's default dot matches any character except newline;
when that character is itself a digit it is consumed by the dot, not by
the index).  Every other name yields sessionKey = the name with any
`.jpg` suffix removed, and index 0. -/
theorem c7_amended :
    (∀ (p d : List Char) (c : Char), (∀ x ∈ p, isDig x = false) →
      (∀ x ∈ d, isDig x = true) → d ≠ [] → c ≠ '\n' →
      parseName ⟨p ++ (d ++ c :: jpgChars)⟩ = (⟨p⟩, ofDec d)) ∧
    (∀ s : String, ¬ wildcardPatternMatches s.data →
      parseName s = (⟨trimSuffixJpg s.data⟩, 0)) := by
  constructor
  · intro p d c hp hd hne hcnl
    simp [parseName, reMatch_decomp p d c hp hd hne hcnl]
  · intro s hnw
    rcases hm : reMatch s.data with _ | pd
    · simp [parseName, hm]
    · exact absurd (reMatch_some_wildcard s.data pd hm) hnw

/-- Witness for C7: the positive direction at `A` ++ `1` ++ `X` ++ `jpg`
and the fallback at `cover.jpg` (which contains no digit at all). -/
theorem c7_witness :
    parseName ⟨"A".data ++ (['1'] ++ 'X' :: jpgChars)⟩ = (⟨"A".data⟩, ofDec ['1']) ∧
    parseName "cover.jpg" = (⟨trimSuffixJpg "cover.jpg".data⟩, 0) :=
  ⟨c7_amended.1 "A".data ['1'] 'X' (by decide) (by decide) (by decide) (by decide),
   c7_amended.2 "cover.jpg" (fun hw => by
     obtain ⟨p, d, c, hsw, _, _, hne, hdall⟩ := hw
     rcases d with _ | ⟨x, d'⟩
     · exact hne rfl
     · have hx : x ∈ "cover.jpg".data := by
         rw [hsw]
         simp
       have hdx : isDig x = true := hdall x (by simp)
       have hall : ∀ y ∈ "cover.jpg".data, isDig y = false := by decide
       rw [hall x hx] at hdx
       exact Bool.noConfusion hdx)⟩

end Smug
